import Mathlib

/-!
Verification of the speechy speech-to-text utility (src/index.py and
src/speech_app.py) against its natural-language specification.

The Python code is shallowly embedded: audio samples are rational numbers,
frames are lists of samples, and the silence-triggered capture loop of
`record_until_silence` is modelled frame-synchronously (the break conditions
of the polling loop are evaluated after each frame delivered by the audio
callback).  Fallible operations return `Except`/`Option`, and observable
side effects (model invocations, temporary-file lifecycle, UI status) are
recorded in explicit outcome structures.
-/

namespace Speechy

/-- Python `int()` applied to a rational: truncation toward zero. -/
def int_of_rat (q : ℚ) : ℤ := if 0 ≤ q then ⌊q⌋ else ⌈q⌉

/-- `np.abs(indata).mean()` (src/index.py line 50): mean absolute level of a
frame of samples. -/
def frameLevel (frame : List ℚ) : ℚ :=
  (frame.map (fun x => |x|)).sum / (frame.length : ℚ)

/-- The mutable state of `record_until_silence` (src/index.py lines 43-46):
the collected chunks, the current run of silent chunks, and whether a frame
above the threshold has been seen. -/
structure RecState where
  chunks : List (List ℚ)
  silent_chunks : ℕ
  speaking_started : Bool
deriving DecidableEq

/-- Initial state of the capture session (src/index.py lines 43-46). -/
def initRec : RecState := ⟨[], 0, false⟩

/-- The audio callback of `record_until_silence` (src/index.py lines 48-57):
append the frame, then update `speaking_started` and `silent_chunks` from the
frame's mean absolute level. -/
def callback (silence_threshold : ℚ) (s : RecState) (indata : List ℚ) : RecState :=
  let level := frameLevel indata
  let chunks := s.chunks ++ [indata]
  if silence_threshold < level then ⟨chunks, 0, true⟩
  else if s.speaking_started then ⟨chunks, s.silent_chunks + 1, s.speaking_started⟩
  else ⟨chunks, s.silent_chunks, s.speaking_started⟩

/-- Run the callback over a list of frames from a given state. -/
def runFrom (silence_threshold : ℚ) (s : RecState) (frames : List (List ℚ)) : RecState :=
  frames.foldl (callback silence_threshold) s

/-- Run the callback over a list of frames from the initial state. -/
def runRec (silence_threshold : ℚ) (frames : List (List ℚ)) : RecState :=
  runFrom silence_threshold initRec frames

/-- `max_silent = int(silence_duration / 0.1)` (src/index.py line 45). -/
def max_silentI (silence_duration : ℚ) : ℤ := int_of_rat (silence_duration / (1 / 10))

/-- The break conditions of the capture loop (src/index.py lines 63-66):
stop when speech has started and the silent run has reached `max_silent`, or
when the recorded duration `len(chunks) * 0.1` has reached `max_duration`. -/
def shouldStop (silence_duration max_duration : ℚ) (s : RecState) : Bool :=
  (s.speaking_started && decide (max_silentI silence_duration ≤ (s.silent_chunks : ℤ)))
  || decide (max_duration ≤ (s.chunks.length : ℚ) * (1 / 10))

/-- The buffer returned by `record_until_silence` (src/index.py line 69):
`np.concatenate(chunks)`. -/
def recordedAudio (s : RecState) : List ℚ := s.chunks.flatten

/-- The capture loop terminates exactly after processing `n` frames of the
stream: the break condition holds after frame `n` and after no earlier
frame. -/
def stopsAt (silence_threshold silence_duration max_duration : ℚ)
    (frames : List (List ℚ)) (n : ℕ) : Prop :=
  shouldStop silence_duration max_duration (runRec silence_threshold (frames.take n)) = true ∧
  ∀ j < n, shouldStop silence_duration max_duration (runRec silence_threshold (frames.take j)) = false

theorem runFrom_append (θ : ℚ) (s : RecState) (a b : List (List ℚ)) :
    runFrom θ s (a ++ b) = runFrom θ (runFrom θ s a) b := by
  simp [runFrom, List.foldl_append]

theorem chunks_runFrom (θ : ℚ) (frames : List (List ℚ)) :
    ∀ s : RecState, (runFrom θ s frames).chunks = s.chunks ++ frames := by
  induction frames with
  | nil => intro s; simp [runFrom]
  | cons f fs ih =>
      intro s
      have hstep : runFrom θ s (f :: fs) = runFrom θ (callback θ s f) fs := rfl
      rw [hstep, ih]
      have hc : (callback θ s f).chunks = s.chunks ++ [f] := by
        simp only [callback]
        split
        · rfl
        · split <;> rfl
      rw [hc]
      simp

theorem runFrom_loud (θ : ℚ) (frames : List (List ℚ)) :
    ∀ s : RecState, frames ≠ [] → (∀ f ∈ frames, θ < frameLevel f) →
      runFrom θ s frames = ⟨s.chunks ++ frames, 0, true⟩ := by
  induction frames with
  | nil => intro s h; exact absurd rfl h
  | cons f fs ih =>
      intro s _ hloud
      have hstep : runFrom θ s (f :: fs) = runFrom θ (callback θ s f) fs := rfl
      have hcb : callback θ s f = ⟨s.chunks ++ [f], 0, true⟩ := by
        simp only [callback]
        rw [if_pos (hloud f (by simp))]
      rw [hstep, hcb]
      rcases eq_or_ne fs [] with hfs | hfs
      · subst hfs; simp [runFrom]
      · rw [ih _ hfs (fun g hg => hloud g (by simp [hg]))]
        simp

theorem runFrom_silent_speaking (θ : ℚ) (frames : List (List ℚ)) :
    ∀ s : RecState, s.speaking_started = true → (∀ f ∈ frames, frameLevel f ≤ θ) →
      runFrom θ s frames = ⟨s.chunks ++ frames, s.silent_chunks + frames.length, true⟩ := by
  induction frames with
  | nil => intro s hs _; simp [runFrom]; cases s; simp_all
  | cons f fs ih =>
      intro s hs hsil
      have hstep : runFrom θ s (f :: fs) = runFrom θ (callback θ s f) fs := rfl
      have hcb : callback θ s f = ⟨s.chunks ++ [f], s.silent_chunks + 1, true⟩ := by
        simp only [callback]
        rw [if_neg (by exact not_lt.mpr (hsil f (by simp))), if_pos hs]
        cases s; simp_all
      rw [hstep, hcb]
      rw [ih ⟨s.chunks ++ [f], s.silent_chunks + 1, true⟩ rfl
        (fun g hg => hsil g (by simp [hg]))]
      simp
      omega

theorem runFrom_silent_idle (θ : ℚ) (frames : List (List ℚ)) :
    ∀ s : RecState, s.speaking_started = false → (∀ f ∈ frames, frameLevel f ≤ θ) →
      runFrom θ s frames = ⟨s.chunks ++ frames, s.silent_chunks, false⟩ := by
  induction frames with
  | nil => intro s hs _; simp [runFrom]; cases s; simp_all
  | cons f fs ih =>
      intro s hs hsil
      have hstep : runFrom θ s (f :: fs) = runFrom θ (callback θ s f) fs := rfl
      have hcb : callback θ s f = ⟨s.chunks ++ [f], s.silent_chunks, false⟩ := by
        simp only [callback]
        rw [if_neg (by exact not_lt.mpr (hsil f (by simp))), if_neg (by simp [hs])]
        cases s; simp_all
      rw [hstep, hcb]
      rw [ih ⟨s.chunks ++ [f], s.silent_chunks, false⟩ rfl
        (fun g hg => hsil g (by simp [hg]))]
      simp

theorem shouldStop_eq_false (sd maxDur : ℚ) (s : RecState)
    (h1 : s.speaking_started = false ∨ ¬ max_silentI sd ≤ (s.silent_chunks : ℤ))
    (h2 : ¬ maxDur ≤ (s.chunks.length : ℚ) * (1 / 10)) :
    shouldStop sd maxDur s = false := by
  simp only [shouldStop, Bool.or_eq_false_iff, decide_eq_false_iff_not]
  refine ⟨?_, h2⟩
  rcases h1 with h1 | h1
  · simp [h1]
  · simp [h1]

theorem runRec_take_loud (θ : ℚ) (frames : List (List ℚ)) (n : ℕ)
    (h1 : 1 ≤ n) (h2 : n ≤ frames.length)
    (hloud : ∀ f ∈ frames.take n, θ < frameLevel f) :
    runRec θ (frames.take n) = ⟨frames.take n, 0, true⟩ := by
  have hlt : (frames.take n).length = n := by
    simp [List.length_take]
    omega
  have hne : frames.take n ≠ [] := by
    intro hc
    rw [hc] at hlt
    simp at hlt
    omega
  have h := runFrom_loud θ (frames.take n) initRec hne hloud
  simpa [runRec, initRec] using h

theorem runRec_take_mixed (θ : ℚ) (frames : List (List ℚ)) (k j : ℕ)
    (hloud : ∀ f ∈ frames.take (k + 1), θ < frameLevel f)
    (hsil : ∀ f ∈ frames.drop (k + 1), frameLevel f ≤ θ)
    (hk : k + 1 ≤ frames.length)
    (hj : j ≤ frames.length - (k + 1)) :
    runRec θ (frames.take (k + 1 + j)) = ⟨frames.take (k + 1 + j), j, true⟩ := by
  have hsplit : frames.take (k + 1 + j) = frames.take (k + 1) ++ (frames.drop (k + 1)).take j :=
    List.take_add ..
  have hloudSt : runRec θ (frames.take (k + 1)) = ⟨frames.take (k + 1), 0, true⟩ :=
    runRec_take_loud θ frames (k + 1) (by omega) hk hloud
  have hsilAll : ∀ f ∈ (frames.drop (k + 1)).take j, frameLevel f ≤ θ :=
    fun f hf => hsil f (List.take_subset _ _ hf)
  have hlen : ((frames.drop (k + 1)).take j).length = j := by
    simp [List.length_take, List.length_drop]
    omega
  rw [hsplit, runRec, runFrom_append]
  rw [show runFrom θ initRec (frames.take (k + 1)) = ⟨frames.take (k + 1), 0, true⟩ from hloudSt]
  rw [runFrom_silent_speaking θ _ ⟨frames.take (k + 1), 0, true⟩ rfl hsilAll]
  simp [hlen]

/-- C1 (amended).  Silence-triggered segmentation: if frames 0..k are above
the threshold and the following m frames (with `max_silent ≤ m`) are at or
below it, then — provided `max_silent ≥ 1` and the silence-stop point comes
before the max-duration ceiling, i.e. `(k + max_silent) * 0.1 < max_duration`
— the capture loop of `record_until_silence` terminates exactly after
processing frame `k + 1 + max_silent` (counting frames from 1), and after no
earlier frame. -/
theorem silence_stop_exact
    (θ sd maxDur : ℚ) (frames : List (List ℚ)) (k m : ℕ)
    (hlen : frames.length = k + 1 + m)
    (hloud : ∀ f ∈ frames.take (k + 1), θ < frameLevel f)
    (hsil : ∀ f ∈ frames.drop (k + 1), frameLevel f ≤ θ)
    (hms : 1 ≤ max_silentI sd)
    (hm : max_silentI sd ≤ (m : ℤ))
    (hmd : ((k : ℚ) + ((max_silentI sd).toNat : ℚ)) * (1 / 10) < maxDur) :
    stopsAt θ sd maxDur frames (k + 1 + (max_silentI sd).toNat) := by
  set msN := (max_silentI sd).toNat with hmsN
  have hcast : max_silentI sd = (msN : ℤ) := (Int.toNat_of_nonneg (by omega)).symm
  have hms1 : 1 ≤ msN := by omega
  have hmN : msN ≤ m := by omega
  have hdur : ∀ n : ℕ, n ≤ k + msN → ¬ maxDur ≤ (n : ℚ) * (1 / 10) := by
    intro n hn hc
    have h1 : (n : ℚ) ≤ (k : ℚ) + (msN : ℚ) := by exact_mod_cast hn
    nlinarith
  refine ⟨?_, ?_⟩
  · have hst := runRec_take_mixed θ frames k msN hloud hsil (by omega) (by omega)
    rw [hst]
    simp [shouldStop, hcast]
  · intro j hj
    rcases Nat.eq_zero_or_pos j with hj0 | hjpos
    · subst hj0
      have h0 : runRec θ (frames.take 0) = initRec := by simp [runRec, runFrom]
      rw [h0]
      apply shouldStop_eq_false
      · left; rfl
      · have := hdur 0 (by omega)
        simpa [initRec] using this
    · rcases le_or_lt j (k + 1) with hjk | hjk
      · have hj_l : ∀ f ∈ frames.take j, θ < frameLevel f := by
          intro f hf
          apply hloud
          have hjj : frames.take j = (frames.take (k + 1)).take j := by
            rw [List.take_take, min_eq_left hjk]
          exact List.take_subset _ _ (hjj ▸ hf)
        have hst := runRec_take_loud θ frames j hjpos (by omega) hj_l
        rw [hst]
        apply shouldStop_eq_false
        · right
          rw [hcast]
          simp
          omega
        · have hlj : (frames.take j).length = j := by
            simp [List.length_take]
            omega
          rw [hlj]
          exact hdur j (by omega)
      · obtain ⟨j', rfl⟩ : ∃ j', j = k + 1 + j' := ⟨j - (k + 1), by omega⟩
        have hj' : j' < msN := by omega
        have hst := runRec_take_mixed θ frames k j' hloud hsil (by omega) (by omega)
        rw [hst]
        apply shouldStop_eq_false
        · right
          rw [hcast]
          simp
          omega
        · have hlj : (frames.take (k + 1 + j')).length = k + 1 + j' := by
            simp [List.length_take]
            omega
          rw [hlj]
          exact hdur (k + 1 + j') (by omega)

theorem frameLevel_silentFrame : frameLevel [(0 : ℚ)] = 0 := by
  norm_num [frameLevel]

theorem frameLevel_loudFrame : frameLevel [(1 : ℚ)] = 1 := by
  norm_num [frameLevel]

theorem max_silentI_default : max_silentI (3 / 2) = 15 := by
  simp only [max_silentI, int_of_rat]
  rw [if_pos (by norm_num)]
  have h : (3 / 2 : ℚ) / (1 / 10) = ((15 : ℤ) : ℚ) := by norm_num
  rw [h, Int.floor_intCast]

/-- Witness for `silence_stop_exact` at a concrete stream: one loud frame
followed by 15 silent frames, with the default parameters. -/
theorem silence_stop_exact_witness :
    stopsAt (1 / 100) (3 / 2) 30 ([[(1 : ℚ)]] ++ List.replicate 15 [(0 : ℚ)])
      (0 + 1 + (max_silentI (3 / 2)).toNat) :=
  silence_stop_exact (1 / 100) (3 / 2) 30 ([[(1 : ℚ)]] ++ List.replicate 15 [(0 : ℚ)]) 0 15
    (by simp)
    (by
      intro f hf
      simp [List.mem_replicate] at hf
      subst hf
      rw [frameLevel_loudFrame]
      norm_num)
    (by
      intro f hf
      simp [List.mem_replicate] at hf
      subst hf
      rw [frameLevel_silentFrame]
      norm_num)
    (by rw [max_silentI_default]; norm_num)
    (by rw [max_silentI_default]; norm_num)
    (by rw [max_silentI_default]; norm_num [show Int.toNat 15 = 15 from rfl])

/-- A stream of the shape hypothesised by the silence-stop claim with the
default parameters: frames 0..300 are loud, the following 15 frames are
silent.  The claim predicts termination at frame 300 + 1 + 15 = 316; the
code's max-duration ceiling fires at frame 300. -/
def demoStream : List (List ℚ) := List.replicate 301 [(1 : ℚ)] ++ List.replicate 15 [(0 : ℚ)]

theorem demoStream_take (n : ℕ) (hn : n ≤ 301) :
    demoStream.take n = List.replicate n [(1 : ℚ)] := by
  have hlen : (List.replicate 301 [(1 : ℚ)]).length = 301 := List.length_replicate ..
  rw [demoStream, List.take_append_of_le_length (by rw [hlen]; omega), List.take_replicate]
  congr 1
  omega

theorem demoStream_state (n : ℕ) (h1 : 1 ≤ n) (h2 : n ≤ 301) :
    runRec (1 / 100) (demoStream.take n) = ⟨List.replicate n [(1 : ℚ)], 0, true⟩ := by
  rw [demoStream_take n h2]
  have h := runFrom_loud (1 / 100) (List.replicate n [(1 : ℚ)]) initRec
    (by
      intro hc
      have hlen := congrArg List.length hc
      rw [List.length_replicate] at hlen
      simp at hlen
      omega)
    (by
      intro f hf
      simp [List.mem_replicate] at hf
      rcases hf with ⟨-, hf⟩
      subst hf
      rw [frameLevel_loudFrame]
      norm_num)
  simpa [runRec, initRec] using h

/-- C1 (counterexample).  On `demoStream` — which satisfies the claim's
hypotheses with the default parameters (k = 300, m = 15, max_silent_frames =
15) — the capture loop terminates after frame 300 via the max-duration
ceiling, not after frame k + 1 + max_silent_frames = 316 as the claim
states. -/
theorem silence_stop_preempted_by_max_duration :
    (max_silentI (3 / 2)).toNat = 15 ∧
    stopsAt (1 / 100) (3 / 2) 30 demoStream 300 ∧
    ¬ stopsAt (1 / 100) (3 / 2) 30 demoStream (300 + 1 + 15) := by
  have h15 : (max_silentI (3 / 2)).toNat = 15 := by rw [max_silentI_default]; rfl
  have hstops : stopsAt (1 / 100) (3 / 2) 30 demoStream 300 := by
    refine ⟨?_, ?_⟩
    · rw [demoStream_state 300 (by omega) (by omega)]
      simp only [shouldStop, max_silentI_default, Bool.or_eq_true, decide_eq_true_eq]
      right
      show (30 : ℚ) ≤ ((List.replicate 300 [(1 : ℚ)]).length : ℚ) * (1 / 10)
      rw [List.length_replicate]
      norm_num
    · intro j hj
      rcases Nat.eq_zero_or_pos j with h0 | hpos
      · subst h0
        have h0' : runRec (1 / 100) (demoStream.take 0) = initRec := by
          simp [runRec, runFrom]
        rw [h0']
        apply shouldStop_eq_false
        · left; rfl
        · simp [initRec]
      · rw [demoStream_state j hpos (by omega)]
        apply shouldStop_eq_false
        · right
          rw [max_silentI_default]
          simp
        · show ¬ (30 : ℚ) ≤ ((List.replicate j [(1 : ℚ)]).length : ℚ) * (1 / 10)
          rw [List.length_replicate]
          intro hc
          have hj' : (j : ℚ) ≤ 299 := by exact_mod_cast (by omega : j ≤ 299)
          nlinarith
  refine ⟨h15, hstops, ?_⟩
  rintro ⟨-, hmin⟩
  have hfalse := hmin 300 (by omega)
  rw [hstops.1] at hfalse
  exact Bool.noConfusion hfalse

/-- C2. If no frame of the stream ever exceeds the threshold, then after any
number of processed frames `speaking_started` is still false, and the capture
loop's break condition holds exactly when the recorded duration
`len(chunks) * 0.1` has reached `max_duration` — never via the silence
condition. -/
theorem never_loud_no_silence_stop (θ sd maxDur : ℚ) (frames : List (List ℚ))
    (hsil : ∀ f ∈ frames, frameLevel f ≤ θ) :
    ∀ n : ℕ, (runRec θ (frames.take n)).speaking_started = false ∧
      (shouldStop sd maxDur (runRec θ (frames.take n)) = true ↔
        maxDur ≤ (((frames.take n).length : ℚ) * (1 / 10))) := by
  intro n
  have hst := runFrom_silent_idle θ (frames.take n) initRec rfl
    (fun f hf => hsil f (List.take_subset _ _ hf))
  have hrec : runRec θ (frames.take n) = ⟨frames.take n, 0, false⟩ := by
    simpa [runRec, initRec] using hst
  rw [hrec]
  exact ⟨rfl, by simp [shouldStop]⟩

/-- Witness for `never_loud_no_silence_stop`: four all-zero frames, evaluated
after three processed frames. -/
theorem never_loud_no_silence_stop_witness :
    (runRec (1 / 100) ((List.replicate 4 [(0 : ℚ)]).take 3)).speaking_started = false ∧
      (shouldStop (3 / 2) (1 / 2) (runRec (1 / 100) ((List.replicate 4 [(0 : ℚ)]).take 3)) = true ↔
        (1 / 2 : ℚ) ≤ ((((List.replicate 4 [(0 : ℚ)]).take 3).length : ℚ) * (1 / 10))) :=
  never_loud_no_silence_stop (1 / 100) (3 / 2) (1 / 2) (List.replicate 4 [(0 : ℚ)])
    (by
      intro f hf
      simp [List.mem_replicate] at hf
      subst hf
      rw [frameLevel_silentFrame]
      norm_num) 3

/-- C10. With a positive `max_duration`, whenever the capture loop's break
condition holds the collected chunk list is non-empty, so the final
`np.concatenate(chunks)` of `record_until_silence` is applied to a non-empty
list. -/
theorem record_nonempty (θ sd maxDur : ℚ) (frames : List (List ℚ))
    (hmd : 0 < maxDur)
    (hstop : shouldStop sd maxDur (runRec θ frames) = true) :
    (runRec θ frames).chunks ≠ [] := by
  intro hc
  have hch : (runRec θ frames).chunks = frames := by
    simpa [initRec] using chunks_runFrom θ frames initRec
  rw [hch] at hc
  subst hc
  simp [runRec, runFrom, initRec, shouldStop] at hstop
  linarith

/-- Witness for `record_nonempty`: five silent frames against a 0.5 s
max-duration ceiling. -/
theorem record_nonempty_witness :
    (runRec (1 / 100) (List.replicate 5 [(0 : ℚ)])).chunks ≠ [] :=
  record_nonempty (1 / 100) (3 / 2) (1 / 2) (List.replicate 5 [(0 : ℚ)])
    (by norm_num)
    (by
      have h := runFrom_silent_idle (1 / 100) (List.replicate 5 [(0 : ℚ)]) initRec rfl
        (by
          intro f hf
          simp [List.mem_replicate] at hf
          subst hf
          rw [frameLevel_silentFrame]
          norm_num)
      have hrec : runRec (1 / 100) (List.replicate 5 [(0 : ℚ)]) =
          ⟨List.replicate 5 [(0 : ℚ)], 0, false⟩ := by
        simpa [runRec, initRec] using h
      rw [hrec]
      simp [shouldStop]
      norm_num)

/-- `np.max(np.abs(arr))`: the maximum absolute sample value.  `np.max` of an
empty array raises a ValueError, modelled by `none`. -/
def maxAbs : List ℚ → Option ℚ
  | [] => none
  | x :: xs =>
      some (match maxAbs xs with
        | none => |x|
        | some m => max |x| m)

theorem maxAbs_eq_none_iff (l : List ℚ) : maxAbs l = none ↔ l = [] := by
  cases l <;> simp [maxAbs]

theorem maxAbs_le (l : List ℚ) : ∀ m, maxAbs l = some m → ∀ x ∈ l, |x| ≤ m := by
  induction l with
  | nil => intro m hm; simp [maxAbs] at hm
  | cons y ys ih =>
      intro m hm x hx
      simp only [maxAbs] at hm
      rcases List.mem_cons.mp hx with hxy | hxs
      · subst hxy
        rcases hys : maxAbs ys with - | m'
        · rw [hys] at hm
          simp at hm
          simp [← hm]
        · rw [hys] at hm
          simp at hm
          rw [← hm]
          exact le_max_left ..
      · rcases hys : maxAbs ys with - | m'
        · rw [(maxAbs_eq_none_iff ys).mp hys] at hxs
          simp at hxs
        · rw [hys] at hm
          simp at hm
          rw [← hm]
          exact le_trans (ih m' hys x hxs) (le_max_right ..)

/-- The peak-normalization step of the transcribe functions (src/index.py
lines 87-89, src/speech_app.py lines 73-76): divide every sample by the
maximum absolute sample value unless that maximum is not positive.  `none`
models the ValueError `np.max` raises on an empty buffer. -/
def normalizeStep (audio_data : List ℚ) : Option (List ℚ) :=
  (maxAbs audio_data).map
    (fun m => if 0 < m then audio_data.map (fun x => x / m) else audio_data)

/-- `np.int16(x * 32767)` on one post-normalization sample: scale and
truncate toward zero. -/
def quantize (x : ℚ) : ℤ := int_of_rat (x * 32767)

/-- Errors a transcribe call can raise. -/
inductive TransError where
  | emptyReduce
  | modelError (msg : String)
deriving DecidableEq

/-- The model handle, as the transcribe functions use it: a function from the
serialized 16-bit PCM samples to either an error or a list of segment
texts. -/
abbrev Model := List ℤ → Except String (List String)

/-- Observable outcome of a transcribe call: the returned text or propagated
error, how many times the model was invoked, and whether the temporary WAV
file was created but never deleted. -/
structure TransOutcome where
  result : Except TransError String
  modelInvocations : ℕ
  tempLeaked : Bool

/-- `" ".join(s.text for s in segments).strip()`. -/
def joinSegments (segs : List String) : String := (String.intercalate " " segs).trim

/-- The 16-bit PCM buffer handed to the model, when normalization does not
raise. -/
def pcmOf (audio_data : List ℚ) : Option (List ℤ) :=
  (normalizeStep audio_data).map (List.map quantize)

namespace IndexPy

/-- `transcribe` of src/index.py (lines 81-102): create a temporary WAV path,
peak-normalize, quantize and write, invoke the model, join the segment texts;
the `finally` deletes the temporary file whenever the model was reached.  An
empty buffer makes `np.max` raise before the try/finally, leaking the
temporary file. -/
def transcribe (model : Model) (audio_data : List ℚ) : TransOutcome :=
  match normalizeStep audio_data with
  | none => ⟨Except.error TransError.emptyReduce, 0, true⟩
  | some audio =>
      match model (audio.map quantize) with
      | Except.ok segs => ⟨Except.ok (joinSegments segs), 1, false⟩
      | Except.error e => ⟨Except.error (TransError.modelError e), 1, false⟩

end IndexPy

namespace SpeechApp

/-- `transcribe_audio` of src/speech_app.py (lines 64-89): identical to
`IndexPy.transcribe` except that an empty buffer returns the empty string
before any temporary file is created or the model is touched. -/
def transcribe_audio (model : Model) (audio_data : List ℚ) : TransOutcome :=
  if audio_data.length = 0 then ⟨Except.ok "", 0, false⟩
  else
    match normalizeStep audio_data with
    | none => ⟨Except.error TransError.emptyReduce, 0, true⟩
    | some audio =>
        match model (audio.map quantize) with
        | Except.ok segs => ⟨Except.ok (joinSegments segs), 1, false⟩
        | Except.error e => ⟨Except.error (TransError.modelError e), 1, false⟩

end SpeechApp

/-- C4. Pure silence: if the maximum absolute sample value of the buffer is
0, the normalization step takes the skip branch (no division is performed)
and the buffer handed on to quantization is the unchanged, all-zero
buffer. -/
theorem normalizeStep_silent (l : List ℚ) (h : maxAbs l = some 0) :
    normalizeStep l = some l ∧ ∀ x ∈ l, x = 0 := by
  have hall : ∀ x ∈ l, x = 0 := by
    intro x hx
    have := maxAbs_le l 0 h x hx
    exact abs_nonpos_iff.mp this
  refine ⟨?_, hall⟩
  simp [normalizeStep, h]

/-- Witness for `normalizeStep_silent` on the buffer `[0, 0, 0]`. -/
theorem normalizeStep_silent_witness :
    normalizeStep [(0 : ℚ), 0, 0] = some [(0 : ℚ), 0, 0] ∧
      ∀ x ∈ [(0 : ℚ), 0, 0], x = 0 :=
  normalizeStep_silent [(0 : ℚ), 0, 0] (by simp [maxAbs])

/-- C5. Idempotence: if the maximum absolute sample value is already 1, the
normalization step divides by 1 and leaves every sample unchanged. -/
theorem normalizeStep_already_normalized (l : List ℚ) (h : maxAbs l = some 1) :
    normalizeStep l = some l := by
  simp [normalizeStep, h]

/-- Witness for `normalizeStep_already_normalized` on the buffer
`[1, -1/2]`. -/
theorem normalizeStep_already_normalized_witness :
    normalizeStep [(1 : ℚ), -(1 / 2)] = some [(1 : ℚ), -(1 / 2)] :=
  normalizeStep_already_normalized [(1 : ℚ), -(1 / 2)]
    (by norm_num [maxAbs, abs_of_nonneg])

/-- C3 (counterexample).  The CLI variant `transcribe` of src/index.py has no
empty-buffer check: on the empty buffer `np.max(np.abs(audio_data))` raises
before the model is reached, so the call does not return the empty string. -/
theorem transcribe_empty_raises :
    (IndexPy.transcribe (fun _ => Except.ok []) []).result ≠ Except.ok "" ∧
    (IndexPy.transcribe (fun _ => Except.ok []) []).result =
      Except.error TransError.emptyReduce :=
  ⟨fun hc => by simp [IndexPy.transcribe, normalizeStep, maxAbs] at hc, rfl⟩

/-- C3 (amended).  On the empty buffer the menubar variant `transcribe_audio`
returns the empty string without invoking the model; the CLI variant
`transcribe` raises (`np.max` of an empty array) without invoking the model,
instead of returning the empty string. -/
theorem transcribe_empty_amended (model : Model) :
    (SpeechApp.transcribe_audio model []).result = Except.ok "" ∧
    (SpeechApp.transcribe_audio model []).modelInvocations = 0 ∧
    (IndexPy.transcribe model []).result = Except.error TransError.emptyReduce ∧
    (IndexPy.transcribe model []).modelInvocations = 0 :=
  ⟨rfl, rfl, rfl, rfl⟩

/-- C8. For every non-empty buffer, both transcribe variants delete the
temporary WAV file on the success path and on the model-failure path, and a
model error propagates to the caller (wrapped as the transcribe call's
error) with the file already deleted. -/
theorem transcribe_temp_cleanup (model : Model) (audio_data : List ℚ)
    (h : audio_data ≠ []) :
    (IndexPy.transcribe model audio_data).tempLeaked = false ∧
    (SpeechApp.transcribe_audio model audio_data).tempLeaked = false ∧
    ∀ pcm, pcmOf audio_data = some pcm →
      (∀ e, model pcm = Except.error e →
        (IndexPy.transcribe model audio_data).result
            = Except.error (TransError.modelError e) ∧
        (SpeechApp.transcribe_audio model audio_data).result
            = Except.error (TransError.modelError e)) ∧
      (∀ segs, model pcm = Except.ok segs →
        (IndexPy.transcribe model audio_data).result = Except.ok (joinSegments segs) ∧
        (SpeechApp.transcribe_audio model audio_data).result
            = Except.ok (joinSegments segs)) := by
  rcases hn : normalizeStep audio_data with - | a
  · exfalso
    have hmax : maxAbs audio_data = none := by
      rcases hc : maxAbs audio_data with - | m
      · rfl
      · simp [normalizeStep, hc] at hn
    exact h ((maxAbs_eq_none_iff audio_data).mp hmax)
  · have hlen : ¬ audio_data.length = 0 := fun hc => h (List.length_eq_zero.mp hc)
    have hpcm_eq : pcmOf audio_data = some (a.map quantize) := by
      simp [pcmOf, hn]
    rcases hm : model (a.map quantize) with e | segs
    · have hI : IndexPy.transcribe model audio_data =
          ⟨Except.error (TransError.modelError e), 1, false⟩ := by
        simp [IndexPy.transcribe, hn, hm]
      have hS : SpeechApp.transcribe_audio model audio_data =
          ⟨Except.error (TransError.modelError e), 1, false⟩ := by
        simp [SpeechApp.transcribe_audio, hlen, hn, hm]
      refine ⟨by rw [hI], by rw [hS], ?_⟩
      intro pcm hpcm
      have hpcm' : pcm = a.map quantize := by
        rw [hpcm_eq] at hpcm
        exact (Option.some_inj.mp hpcm).symm
      subst hpcm'
      refine ⟨?_, ?_⟩
      · intro e' he'
        rw [hm] at he'
        have he : e = e' := Except.error.inj he'
        subst he
        exact ⟨by rw [hI], by rw [hS]⟩
      · intro segs' hsegs'
        rw [hm] at hsegs'
        exact Except.noConfusion hsegs'
    · have hI : IndexPy.transcribe model audio_data =
          ⟨Except.ok (joinSegments segs), 1, false⟩ := by
        simp [IndexPy.transcribe, hn, hm]
      have hS : SpeechApp.transcribe_audio model audio_data =
          ⟨Except.ok (joinSegments segs), 1, false⟩ := by
        simp [SpeechApp.transcribe_audio, hlen, hn, hm]
      refine ⟨by rw [hI], by rw [hS], ?_⟩
      intro pcm hpcm
      have hpcm' : pcm = a.map quantize := by
        rw [hpcm_eq] at hpcm
        exact (Option.some_inj.mp hpcm).symm
      subst hpcm'
      refine ⟨?_, ?_⟩
      · intro e' he'
        rw [hm] at he'
        exact Except.noConfusion he'
      · intro segs' hsegs'
        rw [hm] at hsegs'
        have hseg : segs = segs' := Except.ok.inj hsegs'
        subst hseg
        exact ⟨by rw [hI], by rw [hS]⟩

/-- Witness for `transcribe_temp_cleanup`: the one-sample buffer `[1]` with a
model that always fails. -/
theorem transcribe_temp_cleanup_witness :
    (IndexPy.transcribe (fun _ => Except.error "boom") [(1 : ℚ)]).tempLeaked = false ∧
    (SpeechApp.transcribe_audio (fun _ => Except.error "boom") [(1 : ℚ)]).tempLeaked = false ∧
    (IndexPy.transcribe (fun _ => Except.error "boom") [(1 : ℚ)]).result
        = Except.error (TransError.modelError "boom") :=
  have h := transcribe_temp_cleanup (fun _ => Except.error "boom") [(1 : ℚ)] (by simp)
  have hmax : maxAbs [(1 : ℚ)] = some 1 := by norm_num [maxAbs]
  have hnorm : normalizeStep [(1 : ℚ)] = some [(1 : ℚ)] := by norm_num [normalizeStep, hmax]
  have hq : quantize (1 : ℚ) = 32767 := by
    simp only [quantize, int_of_rat]
    rw [if_pos (by norm_num)]
    have h327 : ((1 : ℚ) * 32767) = ((32767 : ℤ) : ℚ) := by norm_num
    rw [h327, Int.floor_intCast]
  have hpcm : pcmOf [(1 : ℚ)] = some [(32767 : ℤ)] := by simp [pcmOf, hnorm, hq]
  ⟨h.1, h.2.1, ((h.2.2 [(32767 : ℤ)] hpcm).1 "boom" rfl).1⟩

/-- Observable outcome of one `_process_audio` worker run: whether the
transcriber was entered, how often the model was invoked, the text pasted (if
any), whether an error notification was shown, and whether the `finally`
block reset the menubar status indicator. -/
structure ProcOutcome where
  transcriberCalled : Bool
  modelInvocations : ℕ
  pasted : Option String
  errorNotified : Bool
  statusReset : Bool
deriving DecidableEq

namespace SpeechApp

/-- `SpeechToTextApp._process_audio` (src/speech_app.py lines 235-253): skip
buffers shorter than `_sample_rate * 0.3` samples, otherwise transcribe and
paste non-empty text; any error is caught and shown as a notification, and
the `finally` block always resets the status indicator. -/
def process_audio (model : Model) (audio_data : List ℚ) : ProcOutcome :=
  if (audio_data.length : ℚ) < 16000 * (3 / 10) then
    ⟨false, 0, none, false, true⟩
  else
    let r := transcribe_audio model audio_data
    match r.result with
    | Except.ok text =>
        if text = "" then ⟨true, r.modelInvocations, none, false, true⟩
        else ⟨true, r.modelInvocations, some text, false, true⟩
    | Except.error _ => ⟨true, r.modelInvocations, none, true, true⟩

end SpeechApp

/-- C6. A captured buffer shorter than 0.3 times the sample rate (300 ms) is
discarded silently: `_process_audio` returns without entering the
transcriber or the model, pastes nothing, notifies no error, and resets the
status indicator. -/
theorem process_audio_discards_short (model : Model) (audio_data : List ℚ)
    (h : (audio_data.length : ℚ) < 16000 * (3 / 10)) :
    SpeechApp.process_audio model audio_data = ⟨false, 0, none, false, true⟩ := by
  simp [SpeechApp.process_audio, h]

/-- Witness for `process_audio_discards_short`: a 100-sample buffer
(6.25 ms). -/
theorem process_audio_discards_short_witness :
    SpeechApp.process_audio (fun _ => Except.ok []) (List.replicate 100 (0 : ℚ)) =
      ⟨false, 0, none, false, true⟩ :=
  process_audio_discards_short (fun _ => Except.ok []) (List.replicate 100 (0 : ℚ))
    (by rw [List.length_replicate]; norm_num)

/-- A parsed config file: a JSON object of string keys and values. -/
abbrev Config := List (String × String)

/-- `DEFAULT_HOTKEY = "ctrl"` (src/speech_app.py line 21). -/
def DEFAULT_HOTKEY : String := "ctrl"

/-- `load_config` (src/speech_app.py lines 31-36), with the file system
modelled as the optional parsed content of the config file. -/
def load_config (file : Option Config) : Config :=
  match file with
  | some cfg => cfg
  | none => [("hotkey", DEFAULT_HOTKEY)]

/-- `save_config` (src/speech_app.py lines 39-42): serialize the config
object as the new file content. -/
def save_config (config : Config) : Option Config := some config

/-- The recognized hotkey names (src/speech_app.py line 147). -/
def hotkeyNames : List String :=
  ["ctrl", "alt", "shift", "cmd", "f1", "f2", "f3", "f4", "f5", "f6"]

/-- `config['hotkey']`. -/
def configHotkey (cfg : Config) : Option String := cfg.lookup "hotkey"

/-- C9. Saving a config with any recognized hotkey value and loading it back
yields the same hotkey, and loading with no config file present yields the
default hotkey "ctrl". -/
theorem config_roundtrip_and_default (v : String) (_hv : v ∈ hotkeyNames) :
    configHotkey (load_config (save_config [("hotkey", v)])) = some v ∧
    configHotkey (load_config none) = some DEFAULT_HOTKEY := by
  refine ⟨?_, rfl⟩
  simp [configHotkey, load_config, save_config, List.lookup]

/-- Witness for `config_roundtrip_and_default` at the hotkey "alt". -/
theorem config_roundtrip_and_default_witness :
    configHotkey (load_config (save_config [("hotkey", "alt")])) = some "alt" ∧
    configHotkey (load_config none) = some DEFAULT_HOTKEY :=
  config_roundtrip_and_default "alt" (by simp [hotkeyNames])

/-!
Interleaving model of `get_model` (src/index.py lines 16-34 and
src/speech_app.py lines 45-61): the double-checked-locking lazy singleton.
Each thread runs the program

  if _model is None:          -- outer read
      with _model_lock:       -- acquire
          if _model is None:  -- inner read
              _model = WhisperModel(...)  -- construct and publish
      -- lock released on with-exit
  return _model               -- final read of the global

under a sequentially consistent interleaving of the global state
(`_model`, the lock, and a count of constructions).  Model handles are
identified by the value of the construction counter at creation time, so
"all callers receive the identical handle" becomes "every finished thread
returned handle 1".
-/

/-- Program counter of one thread inside `get_model`. -/
inductive PC where
  | start
  | acquire
  | inner
  | construct
  | release
  | finalRead
  | done
deriving DecidableEq

/-- Local state of one thread: its program counter and, once done, the
handle it returned. -/
structure TState where
  pc : PC
  ret : Option ℕ
deriving DecidableEq

/-- Global state: the `_model` global, the holder of `_model_lock` (if any),
how many constructions have happened, and every thread's local state. -/
structure GState where
  model : Option ℕ
  lockHolder : Option ℕ
  constructions : ℕ
  threads : ℕ → TState

/-- Initial state: no model, lock free, no constructions, every thread about
to perform the outer read. -/
def initG : GState := ⟨none, none, 0, fun _ => ⟨PC.start, none⟩⟩

/-- Replace one thread's local state. -/
def setThread (g : GState) (t : ℕ) (ts : TState) : GState :=
  { g with threads := Function.update g.threads t ts }

theorem threads_setThread (g : GState) (t : ℕ) (ts : TState) (u : ℕ) :
    (setThread g t ts).threads u = if u = t then ts else g.threads u := by
  simp [setThread, Function.update_apply]

/-- Set the lock holder. -/
def setLock (g : GState) (l : Option ℕ) : GState := ⟨g.model, l, g.constructions, g.threads⟩

/-- Perform the construction: bump the construction counter and publish the
freshly constructed handle in the `_model` global. -/
def publish (g : GState) : GState :=
  ⟨some (g.constructions + 1), g.lockHolder, g.constructions + 1, g.threads⟩

theorem threads_setLock (g : GState) (l : Option ℕ) : (setLock g l).threads = g.threads := rfl

theorem threads_publish (g : GState) : (publish g).threads = g.threads := rfl

/-- One interleaved step of some thread of `get_model`. -/
inductive Step : GState → GState → Prop where
  | outerSome (g : GState) (t h : ℕ) :
      (g.threads t).pc = PC.start → g.model = some h →
      Step g (setThread g t ⟨PC.finalRead, (g.threads t).ret⟩)
  | outerNone (g : GState) (t : ℕ) :
      (g.threads t).pc = PC.start → g.model = none →
      Step g (setThread g t ⟨PC.acquire, (g.threads t).ret⟩)
  | acquireLock (g : GState) (t : ℕ) :
      (g.threads t).pc = PC.acquire → g.lockHolder = none →
      Step g (setLock (setThread g t ⟨PC.inner, (g.threads t).ret⟩) (some t))
  | innerSome (g : GState) (t h : ℕ) :
      (g.threads t).pc = PC.inner → g.model = some h →
      Step g (setThread g t ⟨PC.release, (g.threads t).ret⟩)
  | innerNone (g : GState) (t : ℕ) :
      (g.threads t).pc = PC.inner → g.model = none →
      Step g (setThread g t ⟨PC.construct, (g.threads t).ret⟩)
  | constructModel (g : GState) (t : ℕ) :
      (g.threads t).pc = PC.construct →
      Step g (publish (setThread g t ⟨PC.release, (g.threads t).ret⟩))
  | releaseLock (g : GState) (t : ℕ) :
      (g.threads t).pc = PC.release → g.lockHolder = some t →
      Step g (setLock (setThread g t ⟨PC.finalRead, (g.threads t).ret⟩) none)
  | returnModel (g : GState) (t h : ℕ) :
      (g.threads t).pc = PC.finalRead → g.model = some h →
      Step g (setThread g t ⟨PC.done, some h⟩)

/-- States reachable from the initial state by interleaved steps. -/
inductive Reachable : GState → Prop where
  | init : Reachable initG
  | step {g g' : GState} : Reachable g → Step g g' → Reachable g'

/-- The inductive invariant of the double-checked-locking protocol. -/
structure Inv (g : GState) : Prop where
  modelCtor : (g.constructions = 0 ∧ g.model = none) ∨
    (g.constructions = 1 ∧ g.model = some 1)
  lockOwn : ∀ t, (g.threads t).pc = PC.inner ∨ (g.threads t).pc = PC.construct ∨
    (g.threads t).pc = PC.release → g.lockHolder = some t
  ctorNone : ∀ t, (g.threads t).pc = PC.construct → g.model = none
  relSome : ∀ t, (g.threads t).pc = PC.release → g.model ≠ none
  finSome : ∀ t, (g.threads t).pc = PC.finalRead → g.model ≠ none
  doneRet : ∀ t, (g.threads t).pc = PC.done →
    (g.threads t).ret = some 1 ∧ g.model = some 1

theorem inv_init : Inv initG := by
  refine ⟨Or.inl ⟨rfl, rfl⟩, ?_, ?_, ?_, ?_, ?_⟩ <;>
    intro t ht <;> simp [initG] at ht

theorem inv_step {g g' : GState} (hg : Inv g) (hs : Step g g') : Inv g' := by
  obtain ⟨mc, lo, cn, rs, fs, dr⟩ := hg
  cases hs with
  | outerSome t h hpc hm =>
      refine ⟨mc, ?_, ?_, ?_, ?_, ?_⟩
      · intro u hu
        rw [threads_setThread] at hu
        show g.lockHolder = some u
        by_cases hut : u = t
        · subst hut; simp at hu
        · rw [if_neg hut] at hu; exact lo u hu
      · intro u hu
        rw [threads_setThread] at hu
        show g.model = none
        by_cases hut : u = t
        · subst hut; simp at hu
        · rw [if_neg hut] at hu; exact cn u hu
      · intro u hu
        rw [threads_setThread] at hu
        show g.model ≠ none
        by_cases hut : u = t
        · subst hut; simp at hu
        · rw [if_neg hut] at hu; exact rs u hu
      · intro u hu
        show g.model ≠ none
        rw [hm]
        simp
      · intro u hu
        rw [threads_setThread] at hu
        by_cases hut : u = t
        · subst hut; simp at hu
        · rw [if_neg hut] at hu
          rw [threads_setThread, if_neg hut]
          exact dr u hu
  | outerNone t hpc hm =>
      refine ⟨mc, ?_, ?_, ?_, ?_, ?_⟩
      · intro u hu
        rw [threads_setThread] at hu
        show g.lockHolder = some u
        by_cases hut : u = t
        · subst hut; simp at hu
        · rw [if_neg hut] at hu; exact lo u hu
      · intro u hu
        rw [threads_setThread] at hu
        show g.model = none
        by_cases hut : u = t
        · subst hut; simp at hu
        · rw [if_neg hut] at hu; exact cn u hu
      · intro u hu
        rw [threads_setThread] at hu
        show g.model ≠ none
        by_cases hut : u = t
        · subst hut; simp at hu
        · rw [if_neg hut] at hu; exact rs u hu
      · intro u hu
        rw [threads_setThread] at hu
        show g.model ≠ none
        by_cases hut : u = t
        · subst hut; simp at hu
        · rw [if_neg hut] at hu; exact fs u hu
      · intro u hu
        rw [threads_setThread] at hu
        by_cases hut : u = t
        · subst hut; simp at hu
        · rw [if_neg hut] at hu
          rw [threads_setThread, if_neg hut]
          exact dr u hu
  | acquireLock t hpc hl =>
      refine ⟨mc, ?_, ?_, ?_, ?_, ?_⟩
      · intro u hu
        rw [threads_setLock, threads_setThread] at hu
        show some t = some u
        by_cases hut : u = t
        · subst hut; rfl
        · rw [if_neg hut] at hu
          exact absurd (lo u hu) (by rw [hl]; simp)
      · intro u hu
        rw [threads_setLock, threads_setThread] at hu
        show g.model = none
        by_cases hut : u = t
        · subst hut; simp at hu
        · rw [if_neg hut] at hu; exact cn u hu
      · intro u hu
        rw [threads_setLock, threads_setThread] at hu
        show g.model ≠ none
        by_cases hut : u = t
        · subst hut; simp at hu
        · rw [if_neg hut] at hu; exact rs u hu
      · intro u hu
        rw [threads_setLock, threads_setThread] at hu
        show g.model ≠ none
        by_cases hut : u = t
        · subst hut; simp at hu
        · rw [if_neg hut] at hu; exact fs u hu
      · intro u hu
        rw [threads_setLock, threads_setThread] at hu
        by_cases hut : u = t
        · subst hut; simp at hu
        · rw [if_neg hut] at hu
          rw [threads_setLock, threads_setThread, if_neg hut]
          exact dr u hu
  | innerSome t h hpc hm =>
      refine ⟨mc, ?_, ?_, ?_, ?_, ?_⟩
      · intro u hu
        rw [threads_setThread] at hu
        show g.lockHolder = some u
        by_cases hut : u = t
        · subst hut; exact lo u (Or.inl hpc)
        · rw [if_neg hut] at hu; exact lo u hu
      · intro u hu
        rw [threads_setThread] at hu
        show g.model = none
        by_cases hut : u = t
        · subst hut; simp at hu
        · rw [if_neg hut] at hu; exact cn u hu
      · intro u hu
        show g.model ≠ none
        rw [hm]
        simp
      · intro u hu
        rw [threads_setThread] at hu
        show g.model ≠ none
        by_cases hut : u = t
        · subst hut; simp at hu
        · rw [if_neg hut] at hu; exact fs u hu
      · intro u hu
        rw [threads_setThread] at hu
        by_cases hut : u = t
        · subst hut; simp at hu
        · rw [if_neg hut] at hu
          rw [threads_setThread, if_neg hut]
          exact dr u hu
  | innerNone t hpc hm =>
      refine ⟨mc, ?_, ?_, ?_, ?_, ?_⟩
      · intro u hu
        rw [threads_setThread] at hu
        show g.lockHolder = some u
        by_cases hut : u = t
        · subst hut; exact lo u (Or.inl hpc)
        · rw [if_neg hut] at hu; exact lo u hu
      · intro u hu
        show g.model = none
        exact hm
      · intro u hu
        rw [threads_setThread] at hu
        show g.model ≠ none
        by_cases hut : u = t
        · subst hut; simp at hu
        · rw [if_neg hut] at hu; exact rs u hu
      · intro u hu
        rw [threads_setThread] at hu
        show g.model ≠ none
        by_cases hut : u = t
        · subst hut; simp at hu
        · rw [if_neg hut] at hu; exact fs u hu
      · intro u hu
        rw [threads_setThread] at hu
        by_cases hut : u = t
        · subst hut; simp at hu
        · rw [if_neg hut] at hu
          rw [threads_setThread, if_neg hut]
          exact dr u hu
  | constructModel t hpc =>
      refine ⟨?_, ?_, ?_, ?_, ?_, ?_⟩
      · rcases mc with ⟨hc0, -⟩ | ⟨-, hm1⟩
        · refine Or.inr ⟨?_, ?_⟩
          · show g.constructions + 1 = 1
            rw [hc0]
          · show some (g.constructions + 1) = some 1
            rw [hc0]
        · exact absurd (cn t hpc) (by rw [hm1]; simp)
      · intro u hu
        rw [threads_publish, threads_setThread] at hu
        show g.lockHolder = some u
        by_cases hut : u = t
        · subst hut; exact lo u (Or.inr (Or.inl hpc))
        · rw [if_neg hut] at hu; exact lo u hu
      · intro u hu
        rw [threads_publish, threads_setThread] at hu
        by_cases hut : u = t
        · subst hut; simp at hu
        · rw [if_neg hut] at hu
          have h1 := lo u (Or.inr (Or.inl hu))
          have h2 := lo t (Or.inr (Or.inl hpc))
          rw [h2] at h1
          exact absurd (Option.some_inj.mp h1).symm hut
      · intro u hu
        show some (g.constructions + 1) ≠ none
        simp
      · intro u hu
        show some (g.constructions + 1) ≠ none
        simp
      · intro u hu
        rw [threads_publish, threads_setThread] at hu
        by_cases hut : u = t
        · subst hut; simp at hu
        · rw [if_neg hut] at hu
          have hd := dr u hu
          rw [cn t hpc] at hd
          exact Option.noConfusion hd.2
  | releaseLock t hpc hl =>
      refine ⟨mc, ?_, ?_, ?_, ?_, ?_⟩
      · intro u hu
        rw [threads_setLock, threads_setThread] at hu
        by_cases hut : u = t
        · subst hut; simp at hu
        · rw [if_neg hut] at hu
          have h1 := lo u hu
          rw [hl] at h1
          exact absurd (Option.some_inj.mp h1).symm hut
      · intro u hu
        rw [threads_setLock, threads_setThread] at hu
        show g.model = none
        by_cases hut : u = t
        · subst hut; simp at hu
        · rw [if_neg hut] at hu; exact cn u hu
      · intro u hu
        rw [threads_setLock, threads_setThread] at hu
        show g.model ≠ none
        by_cases hut : u = t
        · subst hut; simp at hu
        · rw [if_neg hut] at hu; exact rs u hu
      · intro u hu
        rw [threads_setLock, threads_setThread] at hu
        show g.model ≠ none
        by_cases hut : u = t
        · subst hut; exact rs u hpc
        · rw [if_neg hut] at hu; exact fs u hu
      · intro u hu
        rw [threads_setLock, threads_setThread] at hu
        by_cases hut : u = t
        · subst hut; simp at hu
        · rw [if_neg hut] at hu
          rw [threads_setLock, threads_setThread, if_neg hut]
          exact dr u hu
  | returnModel t h hpc hm =>
      refine ⟨mc, ?_, ?_, ?_, ?_, ?_⟩
      · intro u hu
        rw [threads_setThread] at hu
        show g.lockHolder = some u
        by_cases hut : u = t
        · subst hut; simp at hu
        · rw [if_neg hut] at hu; exact lo u hu
      · intro u hu
        rw [threads_setThread] at hu
        show g.model = none
        by_cases hut : u = t
        · subst hut; simp at hu
        · rw [if_neg hut] at hu; exact cn u hu
      · intro u hu
        rw [threads_setThread] at hu
        show g.model ≠ none
        by_cases hut : u = t
        · subst hut; simp at hu
        · rw [if_neg hut] at hu; exact rs u hu
      · intro u hu
        rw [threads_setThread] at hu
        show g.model ≠ none
        by_cases hut : u = t
        · subst hut; simp at hu
        · rw [if_neg hut] at hu; exact fs u hu
      · intro u hu
        rw [threads_setThread] at hu
        by_cases hut : u = t
        · subst hut
          rw [threads_setThread, if_pos rfl]
          rcases mc with ⟨-, hmn⟩ | ⟨-, hm1⟩
          · exact absurd hm (by rw [hmn]; simp)
          · have hh : h = 1 := by
              rw [hm] at hm1
              exact Option.some_inj.mp hm1
            subst hh
            exact ⟨rfl, hm1⟩
        · rw [if_neg hut] at hu
          rw [threads_setThread, if_neg hut]
          exact dr u hu

theorem inv_reachable {g : GState} (h : Reachable g) : Inv g := by
  induction h with
  | init => exact inv_init
  | step _ hs ih => exact inv_step ih hs

/-- C7. In every reachable state of the interleaved `get_model` protocol, at
most one model construction has ever occurred, every thread that has returned
received the one constructed handle, and once any caller has returned,
exactly one construction has occurred. -/
theorem get_model_single_construction (g : GState) (hg : Reachable g) :
    g.constructions ≤ 1 ∧
    (∀ t, (g.threads t).pc = PC.done → (g.threads t).ret = some 1) ∧
    ((∃ t, (g.threads t).pc = PC.done) → g.constructions = 1) := by
  have hinv := inv_reachable hg
  refine ⟨?_, ?_, ?_⟩
  · rcases hinv.modelCtor with ⟨hc, -⟩ | ⟨hc, -⟩ <;> omega
  · intro t ht
    exact (hinv.doneRet t ht).1
  · rintro ⟨t, ht⟩
    have hm := (hinv.doneRet t ht).2
    rcases hinv.modelCtor with ⟨-, hmn⟩ | ⟨hc, -⟩
    · rw [hmn] at hm
      exact Option.noConfusion hm
    · exact hc

/-- Trace state: thread 0 has taken the outer read and seen no model. -/
def demo1 : GState := setThread initG 0 ⟨PC.acquire, none⟩

/-- Trace state: thread 0 holds the lock. -/
def demo2 : GState := setLock (setThread demo1 0 ⟨PC.inner, none⟩) (some 0)

/-- Trace state: thread 0 has re-read the model under the lock. -/
def demo3 : GState := setThread demo2 0 ⟨PC.construct, none⟩

/-- Trace state: thread 0 has constructed and published the model. -/
def demo4 : GState := publish (setThread demo3 0 ⟨PC.release, none⟩)

/-- Trace state: thread 0 has released the lock. -/
def demo5 : GState := setLock (setThread demo4 0 ⟨PC.finalRead, none⟩) none

/-- Trace state: thread 0 has returned the published handle. -/
def demoFinal : GState := setThread demo5 0 ⟨PC.done, some 1⟩

/-- Witness for `get_model_single_construction`: one thread runs `get_model`
to completion; in the resulting reachable state exactly one construction has
occurred and the thread returned handle 1. -/
theorem get_model_single_construction_witness :
    demoFinal.constructions ≤ 1 ∧ (demoFinal.threads 0).ret = some 1 ∧
      demoFinal.constructions = 1 :=
  have s1 : Step initG demo1 := Step.outerNone initG 0 rfl rfl
  have s2 : Step demo1 demo2 := Step.acquireLock demo1 0 rfl rfl
  have s3 : Step demo2 demo3 := Step.innerNone demo2 0 rfl rfl
  have s4 : Step demo3 demo4 := Step.constructModel demo3 0 rfl
  have s5 : Step demo4 demo5 := Step.releaseLock demo4 0 rfl rfl
  have s6 : Step demo5 demoFinal := Step.returnModel demo5 0 1 rfl rfl
  have hr : Reachable demoFinal :=
    Reachable.step
      (Reachable.step
        (Reachable.step
          (Reachable.step (Reachable.step (Reachable.step Reachable.init s1) s2) s3) s4) s5) s6
  have h := get_model_single_construction demoFinal hr
  ⟨h.1, h.2.1 0 rfl, h.2.2 ⟨0, rfl⟩⟩

end Speechy
